import Mathlib

/-!
Shallow embedding of `src/positional_embedding/rel_pos_embd.py`
(relative positional bias for windowed attention).

Conventions of the embedding:
* a window size is a pair `(height, width)` of naturals;
* `torch.meshgrid([arange h, arange w])` followed by `stack` and `flatten(1)`
  enumerates the grid row-major, so the flattened position `p` has
  coordinates `(p / w, p % w)`;
* `torch.unique(v, return_inverse := True, dim := 0)` returns the distinct
  rows in ascending lexicographic order together with the inverse indices;
  for a `dim`-unique the inverse is a **1-D** tensor of length
  `v.size(0)` (one entry per row, its position in the sorted distinct
  list), modelled as `List.indexOf` into the sorted deduplicated list of
  rows, mapped over the row list;
* because that inverse is 1-D, `gen_relative_position_index` returns a
  flat tensor when `class_token = False`, and with `class_token = True`
  its `F.pad(relative_position_index, [1, 0, 1, 0])` raises
  (`AssertionError: Padding length too large`: a 4-element pad list needs
  at least 2 input dimensions), so every `class_token = True` call fails;
  the function is modelled with `Except` and a shape-carrying tensor;
* float tensors are modelled over `ℝ` (exact real arithmetic; IEEE
  non-finite values produced by a division by zero are outside this model
  and no theorem below evaluates the swin branch at a size-1 axis);
* the only exception raised by `gen_relative_log_coords` is its
  `assert mode in ("swin", "cr")`, modelled with `Except`;
  `generate_lookup_tensor` raises nothing and is modelled total.
-/

namespace RelPosEmbd

/-- `window_area`: number of positions of a window. -/
def area (s : ℕ × ℕ) : ℕ := s.1 * s.2

/-- Row coordinate of flattened position `p` (row-major meshgrid flatten). -/
def coordRow (s : ℕ × ℕ) (p : ℕ) : ℕ := p / s.2

/-- Column coordinate of flattened position `p`. -/
def coordCol (s : ℕ × ℕ) (p : ℕ) : ℕ := p % s.2

/-- `relative_coords[a][b]` : the pairwise coordinate difference
`q_coords[:, a] - k_coords[:, b]` (line 34 of the source). -/
def relDiff (qs ks : ℕ × ℕ) (a b : ℕ) : ℤ × ℤ :=
  ((coordRow qs a : ℤ) - (coordRow ks b : ℤ),
   (coordCol qs a : ℤ) - (coordCol ks b : ℤ))

/-- The row-major flattening `relative_coords.view(-1, 2)`. -/
def allDiffs (qs ks : ℕ × ℕ) : List (ℤ × ℤ) :=
  (List.range (area qs)).flatMap fun a =>
    (List.range (area ks)).map fun b => relDiff qs ks a b

/-- Ascending lexicographic order on difference rows, the order in which
`torch.unique(..., dim := 0)` lists the distinct rows. -/
def lexLe (a b : ℤ × ℤ) : Prop :=
  a.1 < b.1 ∨ (a.1 = b.1 ∧ a.2 ≤ b.2)

instance : DecidableRel lexLe := fun a b => by
  unfold lexLe
  infer_instance

/-- The first return value of `torch.unique(..., dim := 0)`: the distinct
difference rows sorted in ascending lexicographic order. -/
def sortedUniqueDiffs (qs ks : ℕ × ℕ) : List (ℤ × ℤ) :=
  List.insertionSort lexLe (allDiffs qs ks).dedup

/-- The `return_inverse` value of `torch.unique` at entry `(a, b)`:
the position of `relDiff qs ks a b` in the sorted distinct list. -/
def uniqueInverse (qs ks : ℕ × ℕ) (a b : ℕ) : ℕ :=
  letI : BEq (ℤ × ℤ) := instBEqOfDecidableEq
  (sortedUniqueDiffs qs ks).indexOf (relDiff qs ks a b)

/-- `num_relative_distance` (line 44 of the source), computed in the
class-token branch just before the `F.pad` call that raises; retained to
document the vocabulary constant the overwrites would have used. -/
def num_relative_distance (qs ks : ℕ × ℕ) : ℕ :=
  (2 * max qs.1 ks.1 - 1) * (2 * max qs.2 ks.2 - 1) + 3

/-- A tensor of natural-number entries, modelled as its shape vector
together with its row-major data. -/
structure NatTensor where
  shape : List ℕ
  data : List ℕ

/-- The inverse-indices tensor of
`torch.unique(relative_coords.view(-1, 2), return_inverse := True,
dim := 0)`: for a `dim`-unique the inverse is **1-D** with shape
`input.size(0)`, i.e. one entry per row of the flattened difference
array (in row-major order), each entry the position of its row in the
sorted distinct list. -/
def flat_inverse (qs ks : ℕ × ℕ) : List ℕ :=
  letI : BEq (ℤ × ℤ) := instBEqOfDecidableEq
  (allDiffs qs ks).map fun d => (sortedUniqueDiffs qs ks).indexOf d

/-- `gen_relative_position_index`.  With `class_token = False` the function
returns the flat 1-D inverse tensor of length `area_q · area_k` unchanged
(the source never reshapes it).  With `class_token = True` it applies
`F.pad(relative_position_index, [1, 0, 1, 0])` to that 1-D tensor: a
4-element pad list requires at least 2 input dimensions, so `F.pad`
raises `AssertionError: Padding length too large` before any of the three
overwrites executes — every `class_token = True` call fails. -/
def gen_relative_position_index (qSize : ℕ × ℕ) (kSize : Option (ℕ × ℕ))
    (classToken : Bool) : Except String NatTensor :=
  let ks := kSize.getD qSize
  if classToken then .error "Padding length too large"
  else .ok ⟨[area qSize * area ks], flat_inverse qSize ks⟩

/-- Closed form for the sorted distinct difference list: when every window
dimension is positive, the distinct differences are exactly the integer box
`[-(kh-1), qh-1] × [-(kw-1), qw-1]`, listed row-major in ascending
lexicographic order.  This list is what `sortedUniqueDiffs` is proved to
equal; it is not part of the embedding of the source. -/
def enumDiffs (qs ks : ℕ × ℕ) : List (ℤ × ℤ) :=
  (List.range ((qs.1 + ks.1 - 1) * (qs.2 + ks.2 - 1))).map fun t =>
    ((↑(t / (qs.2 + ks.2 - 1)) : ℤ) - (↑(ks.1 - 1) : ℤ),
     (↑(t % (qs.2 + ks.2 - 1)) : ℤ) - (↑(ks.2 - 1) : ℤ))

instance : IsTrans (ℤ × ℤ) lexLe := by
  refine ⟨fun a b c hab hbc => ?_⟩
  simp only [lexLe] at *
  omega

instance : IsTotal (ℤ × ℤ) lexLe := by
  refine ⟨fun a b => ?_⟩
  simp only [lexLe]
  omega

instance : IsAntisymm (ℤ × ℤ) lexLe := by
  refine ⟨fun a b hab hba => ?_⟩
  simp only [lexLe] at hab hba
  have h1 : a.1 = b.1 := by omega
  have h2 : a.2 = b.2 := by omega
  exact Prod.ext h1 h2

lemma mem_allDiffs {qs ks : ℕ × ℕ} {d : ℤ × ℤ} :
    d ∈ allDiffs qs ks ↔
      ∃ a < area qs, ∃ b < area ks, relDiff qs ks a b = d := by
  simp only [allDiffs, List.mem_flatMap, List.mem_map, List.mem_range]

lemma coordRow_lt {s : ℕ × ℕ} {p : ℕ} (hp : p < area s) (h2 : 0 < s.2) :
    coordRow s p < s.1 := by
  have := (Nat.div_lt_iff_lt_mul h2).mpr hp
  simpa [coordRow] using this

lemma coordCol_lt {s : ℕ × ℕ} (p : ℕ) (h2 : 0 < s.2) :
    coordCol s p < s.2 := Nat.mod_lt _ h2

lemma encode_lt {m n r c : ℕ} (hr : r < m) (hc : c < n) : n * r + c < m * n :=
  calc n * r + c < n * r + n := by omega
  _ = n * (r + 1) := (Nat.mul_succ n r).symm
  _ ≤ n * m := Nat.mul_le_mul (Nat.le_refl n) hr
  _ = m * n := Nat.mul_comm n m

lemma coordRow_encode {s : ℕ × ℕ} {r c : ℕ} (hc : c < s.2) :
    coordRow s (s.2 * r + c) = r := by
  simp [coordRow, Nat.mul_add_div (lt_of_le_of_lt (Nat.zero_le c) hc),
    Nat.div_eq_of_lt hc]

lemma coordCol_encode {s : ℕ × ℕ} {r c : ℕ} (hc : c < s.2) :
    coordCol s (s.2 * r + c) = c := by
  simp [coordCol, Nat.mul_add_mod, Nat.mod_eq_of_lt hc]

/-- The set of pairwise differences is exactly the integer box
`[-(kh-1), qh-1] × [-(kw-1), qw-1]`. -/
lemma mem_allDiffs_box {qs ks : ℕ × ℕ} (hq1 : 0 < qs.1) (hq2 : 0 < qs.2)
    (hk1 : 0 < ks.1) (hk2 : 0 < ks.2) {d : ℤ × ℤ} :
    d ∈ allDiffs qs ks ↔
      (-((ks.1 : ℤ) - 1) ≤ d.1 ∧ d.1 ≤ (qs.1 : ℤ) - 1 ∧
       -((ks.2 : ℤ) - 1) ≤ d.2 ∧ d.2 ≤ (qs.2 : ℤ) - 1) := by
  rw [mem_allDiffs]
  constructor
  · rintro ⟨a, ha, b, hb, rfl⟩
    have h1 := coordRow_lt ha hq2
    have h2 := coordRow_lt hb hk2
    have h3 := @coordCol_lt qs a hq2
    have h4 := @coordCol_lt ks b hk2
    simp only [relDiff]
    omega
  · rintro ⟨hb1, hb2, hb3, hb4⟩
    have hr : d.1.toNat < qs.1 := by omega
    have hc : d.2.toNat < qs.2 := by omega
    have hr' : (-d.1).toNat < ks.1 := by omega
    have hc' : (-d.2).toNat < ks.2 := by omega
    refine ⟨qs.2 * d.1.toNat + d.2.toNat, encode_lt hr hc,
            ks.2 * (-d.1).toNat + (-d.2).toNat, encode_lt hr' hc', ?_⟩
    simp only [relDiff, coordRow_encode hc, coordCol_encode hc,
      coordRow_encode hc', coordCol_encode hc']
    have e1 : (d.1.toNat : ℤ) - ((-d.1).toNat : ℤ) = d.1 := by omega
    have e2 : (d.2.toNat : ℤ) - ((-d.2).toNat : ℤ) = d.2 := by omega
    exact Prod.ext e1 e2

lemma length_enumDiffs (qs ks : ℕ × ℕ) :
    (enumDiffs qs ks).length = (qs.1 + ks.1 - 1) * (qs.2 + ks.2 - 1) := by
  simp [enumDiffs]

lemma getElem_enumDiffs (qs ks : ℕ × ℕ) {t : ℕ}
    (ht : t < (enumDiffs qs ks).length) :
    (enumDiffs qs ks)[t] =
      ((↑(t / (qs.2 + ks.2 - 1)) : ℤ) - (↑(ks.1 - 1) : ℤ),
       (↑(t % (qs.2 + ks.2 - 1)) : ℤ) - (↑(ks.2 - 1) : ℤ)) := by
  simp [enumDiffs]

lemma mem_enumDiffs {qs ks : ℕ × ℕ} (hq1 : 0 < qs.1) (hq2 : 0 < qs.2)
    (hk1 : 0 < ks.1) (hk2 : 0 < ks.2) {d : ℤ × ℤ} :
    d ∈ enumDiffs qs ks ↔
      (-((ks.1 : ℤ) - 1) ≤ d.1 ∧ d.1 ≤ (qs.1 : ℤ) - 1 ∧
       -((ks.2 : ℤ) - 1) ≤ d.2 ∧ d.2 ≤ (qs.2 : ℤ) - 1) := by
  have hn : 0 < qs.2 + ks.2 - 1 := by omega
  simp only [enumDiffs, List.mem_map, List.mem_range]
  constructor
  · rintro ⟨t, ht, rfl⟩
    have h1 : t / (qs.2 + ks.2 - 1) < qs.1 + ks.1 - 1 :=
      (Nat.div_lt_iff_lt_mul hn).mpr ht
    have h2 : t % (qs.2 + ks.2 - 1) < qs.2 + ks.2 - 1 := Nat.mod_lt _ hn
    have h3 : (0 : ℤ) ≤ (↑(t / (qs.2 + ks.2 - 1)) : ℤ) := Int.natCast_nonneg _
    have h4 : (0 : ℤ) ≤ (↑(t % (qs.2 + ks.2 - 1)) : ℤ) := Int.natCast_nonneg _
    refine ⟨by simp only; omega, by simp only; omega,
      by simp only; omega, by simp only; omega⟩
  · rintro ⟨hb1, hb2, hb3, hb4⟩
    set n := qs.2 + ks.2 - 1 with hn_def
    set r := (d.1 + ((ks.1 : ℤ) - 1)).toNat with hr_def
    set c := (d.2 + ((ks.2 : ℤ) - 1)).toNat with hc_def
    have hrlt : r < qs.1 + ks.1 - 1 := by omega
    have hclt : c < n := by omega
    refine ⟨n * r + c, encode_lt hrlt hclt, ?_⟩
    have hdiv : (n * r + c) / n = r := by
      rw [Nat.mul_add_div hn, Nat.div_eq_of_lt hclt, Nat.add_zero]
    have hmod : (n * r + c) % n = c := by
      rw [Nat.mul_add_mod, Nat.mod_eq_of_lt hclt]
    rw [hdiv, hmod]
    have e1 : (r : ℤ) - (↑(ks.1 - 1) : ℤ) = d.1 := by omega
    have e2 : (c : ℤ) - (↑(ks.2 - 1) : ℤ) = d.2 := by omega
    exact Prod.ext e1 e2

lemma nodup_enumDiffs (qs ks : ℕ × ℕ) (hk2 : 0 < ks.2) (hq2 : 0 < qs.2) :
    (enumDiffs qs ks).Nodup := by
  have hn : 0 < qs.2 + ks.2 - 1 := by omega
  refine List.Nodup.map_on ?_ (List.nodup_range _)
  intro t₁ _ t₂ _ heq
  have h1 : t₁ / (qs.2 + ks.2 - 1) = t₂ / (qs.2 + ks.2 - 1) := by
    have := congrArg Prod.fst heq
    simp only at this
    omega
  have h2 : t₁ % (qs.2 + ks.2 - 1) = t₂ % (qs.2 + ks.2 - 1) := by
    have := congrArg Prod.snd heq
    simp only at this
    omega
  have d1 := Nat.div_add_mod t₁ (qs.2 + ks.2 - 1)
  have d2 := Nat.div_add_mod t₂ (qs.2 + ks.2 - 1)
  rw [← d1, ← d2, h1, h2]

lemma sorted_enumDiffs (qs ks : ℕ × ℕ) :
    List.Sorted lexLe (enumDiffs qs ks) := by
  rw [List.Sorted, List.pairwise_iff_getElem]
  intro i j hi hj hij
  rw [getElem_enumDiffs qs ks hi, getElem_enumDiffs qs ks hj]
  set n := qs.2 + ks.2 - 1 with hn_def
  simp only [lexLe]
  rcases Nat.lt_or_ge (i / n) (j / n) with hlt | hge
  · left
    omega
  · have hle : i / n ≤ j / n := Nat.div_le_div_right (le_of_lt hij)
    have heq : i / n = j / n := le_antisymm hle hge
    have d1 := Nat.div_add_mod i n
    have d2 := Nat.div_add_mod j n
    have hmod : i % n < j % n := by
      rw [← d1, ← d2, heq] at hij
      exact lt_of_add_lt_add_left hij
    right
    omega

lemma nodup_sortedUniqueDiffs (qs ks : ℕ × ℕ) :
    (sortedUniqueDiffs qs ks).Nodup :=
  (List.perm_insertionSort lexLe _).nodup_iff.mpr (List.nodup_dedup _)

lemma mem_sortedUniqueDiffs {qs ks : ℕ × ℕ} {d : ℤ × ℤ} :
    d ∈ sortedUniqueDiffs qs ks ↔ d ∈ allDiffs qs ks :=
  (List.perm_insertionSort lexLe _).mem_iff.trans List.mem_dedup

lemma sorted_sortedUniqueDiffs (qs ks : ℕ × ℕ) :
    List.Sorted lexLe (sortedUniqueDiffs qs ks) :=
  List.sorted_insertionSort lexLe _

/-- The sorted distinct difference list is exactly the lexicographically
ascending enumeration of the difference box. -/
lemma sortedUniqueDiffs_eq_enumDiffs {qs ks : ℕ × ℕ} (hq1 : 0 < qs.1)
    (hq2 : 0 < qs.2) (hk1 : 0 < ks.1) (hk2 : 0 < ks.2) :
    sortedUniqueDiffs qs ks = enumDiffs qs ks := by
  refine List.eq_of_perm_of_sorted ?_ (sorted_sortedUniqueDiffs qs ks)
    (sorted_enumDiffs qs ks)
  refine (List.perm_ext_iff_of_nodup (nodup_sortedUniqueDiffs qs ks)
    (nodup_enumDiffs qs ks hk2 hq2)).mpr ?_
  intro d
  rw [mem_sortedUniqueDiffs, mem_allDiffs_box hq1 hq2 hk1 hk2,
    mem_enumDiffs hq1 hq2 hk1 hk2]

lemma length_sortedUniqueDiffs {qs ks : ℕ × ℕ} (hq1 : 0 < qs.1)
    (hq2 : 0 < qs.2) (hk1 : 0 < ks.1) (hk2 : 0 < ks.2) :
    (sortedUniqueDiffs qs ks).length = (qs.1 + ks.1 - 1) * (qs.2 + ks.2 - 1) := by
  rw [sortedUniqueDiffs_eq_enumDiffs hq1 hq2 hk1 hk2, length_enumDiffs]

lemma indexOf_enumDiffs {qs ks : ℕ × ℕ} (hq1 : 0 < qs.1) (hq2 : 0 < qs.2)
    (hk1 : 0 < ks.1) (hk2 : 0 < ks.2) {d : ℤ × ℤ}
    (hb1 : -((ks.1 : ℤ) - 1) ≤ d.1) (hb2 : d.1 ≤ (qs.1 : ℤ) - 1)
    (hb3 : -((ks.2 : ℤ) - 1) ≤ d.2) (hb4 : d.2 ≤ (qs.2 : ℤ) - 1) :
    @List.indexOf (ℤ × ℤ) instBEqOfDecidableEq d (enumDiffs qs ks) =
      (qs.2 + ks.2 - 1) * (d.1 + ((ks.1 : ℤ) - 1)).toNat +
        (d.2 + ((ks.2 : ℤ) - 1)).toNat := by
  have hn : 0 < qs.2 + ks.2 - 1 := by omega
  set n := qs.2 + ks.2 - 1 with hn_def
  set r := (d.1 + ((ks.1 : ℤ) - 1)).toNat with hr_def
  set c := (d.2 + ((ks.2 : ℤ) - 1)).toNat with hc_def
  have hrlt : r < qs.1 + ks.1 - 1 := by omega
  have hclt : c < n := by omega
  have ht : n * r + c < (enumDiffs qs ks).length := by
    rw [length_enumDiffs]
    exact encode_lt hrlt hclt
  have hval : (enumDiffs qs ks)[n * r + c] = d := by
    rw [getElem_enumDiffs qs ks ht]
    have hdiv : (n * r + c) / n = r := by
      rw [Nat.mul_add_div hn, Nat.div_eq_of_lt hclt, Nat.add_zero]
    have hmod : (n * r + c) % n = c := by
      rw [Nat.mul_add_mod, Nat.mod_eq_of_lt hclt]
    rw [hdiv, hmod]
    have e1 : (r : ℤ) - (↑(ks.1 - 1) : ℤ) = d.1 := by omega
    have e2 : (c : ℤ) - (↑(ks.2 - 1) : ℤ) = d.2 := by omega
    exact Prod.ext e1 e2
  have := List.indexOf_getElem (nodup_enumDiffs qs ks hk2 hq2) (n * r + c) ht
  rw [hval] at this
  exact this

lemma relDiff_mem_sortedUniqueDiffs {qs ks : ℕ × ℕ} {a b : ℕ}
    (ha : a < area qs) (hb : b < area ks) :
    relDiff qs ks a b ∈ sortedUniqueDiffs qs ks :=
  mem_sortedUniqueDiffs.mpr (mem_allDiffs.mpr ⟨a, ha, b, hb, rfl⟩)

/-- Closed form of the inverse index: the distinct offsets are ranked in
ascending lexicographic order. -/
lemma uniqueInverse_formula {qs ks : ℕ × ℕ} (hq1 : 0 < qs.1) (hq2 : 0 < qs.2)
    (hk1 : 0 < ks.1) (hk2 : 0 < ks.2) {a b : ℕ}
    (ha : a < area qs) (hb : b < area ks) :
    uniqueInverse qs ks a b =
      (qs.2 + ks.2 - 1) * ((relDiff qs ks a b).1 + ((ks.1 : ℤ) - 1)).toNat +
        ((relDiff qs ks a b).2 + ((ks.2 : ℤ) - 1)).toNat := by
  have hbox := (mem_allDiffs_box hq1 hq2 hk1 hk2).mp
    (mem_allDiffs.mpr ⟨a, ha, b, hb, rfl⟩)
  rw [uniqueInverse, sortedUniqueDiffs_eq_enumDiffs hq1 hq2 hk1 hk2]
  exact indexOf_enumDiffs hq1 hq2 hk1 hk2 hbox.1 hbox.2.1 hbox.2.2.1 hbox.2.2.2

lemma uniqueInverse_lt {qs ks : ℕ × ℕ} (hq1 : 0 < qs.1) (hq2 : 0 < qs.2)
    (hk1 : 0 < ks.1) (hk2 : 0 < ks.2) {a b : ℕ}
    (ha : a < area qs) (hb : b < area ks) :
    uniqueInverse qs ks a b < (qs.1 + ks.1 - 1) * (qs.2 + ks.2 - 1) := by
  rw [← length_sortedUniqueDiffs hq1 hq2 hk1 hk2]
  exact List.indexOf_lt_length.mpr (relDiff_mem_sortedUniqueDiffs ha hb)

/-- Every rank below the number of distinct offsets is attained by some
position pair. -/
lemma uniqueInverse_surjective {qs ks : ℕ × ℕ} (hq1 : 0 < qs.1)
    (hq2 : 0 < qs.2) (hk1 : 0 < ks.1) (hk2 : 0 < ks.2) {v : ℕ}
    (hv : v < (qs.1 + ks.1 - 1) * (qs.2 + ks.2 - 1)) :
    ∃ a < area qs, ∃ b < area ks, uniqueInverse qs ks a b = v := by
  have hv' : v < (sortedUniqueDiffs qs ks).length := by
    rw [length_sortedUniqueDiffs hq1 hq2 hk1 hk2]; exact hv
  have hmem : (sortedUniqueDiffs qs ks)[v] ∈ sortedUniqueDiffs qs ks :=
    List.getElem_mem hv'
  obtain ⟨a, ha, b, hb, hab⟩ := mem_allDiffs.mp (mem_sortedUniqueDiffs.mp hmem)
  refine ⟨a, ha, b, hb, ?_⟩
  rw [uniqueInverse, hab]
  exact List.indexOf_getElem (nodup_sortedUniqueDiffs qs ks) v hv'

lemma area_mk (h w : ℕ) : area (h, w) = h * w := rfl

lemma flatMap_range_map {α : Type} (m n : ℕ) (f : ℕ → ℕ → α) :
    (List.range m).flatMap (fun a => (List.range n).map (f a))
      = (List.range (m * n)).map fun t => f (t / n) (t % n) := by
  induction m with
  | zero => simp
  | succ m ih =>
    rw [List.range_succ, List.flatMap_append, ih, Nat.succ_mul, List.range_add,
      List.map_append]
    congr 1
    simp only [List.flatMap_cons, List.flatMap_nil, List.append_nil,
      List.map_map]
    refine List.map_congr_left ?_
    intro t ht
    rw [List.mem_range] at ht
    have hn : 0 < n := lt_of_le_of_lt (Nat.zero_le t) ht
    have hcomm : m * n + t = n * m + t := by ring
    simp only [Function.comp]
    rw [hcomm, Nat.mul_add_div hn, Nat.div_eq_of_lt ht, Nat.add_zero,
      Nat.mul_add_mod, Nat.mod_eq_of_lt ht]

/-- The flattened difference array, row-major: row `a · area_k + b` is the
difference of pair `(a, b)`. -/
lemma allDiffs_eq_map (qs ks : ℕ × ℕ) :
    allDiffs qs ks = (List.range (area qs * area ks)).map
      fun t => relDiff qs ks (t / area ks) (t % area ks) :=
  flatMap_range_map (area qs) (area ks) (relDiff qs ks)

lemma length_flat_inverse (qs ks : ℕ × ℕ) :
    (flat_inverse qs ks).length = area qs * area ks := by
  rw [flat_inverse, List.length_map, allDiffs_eq_map]
  simp

lemma getElem_allDiffs (qs ks : ℕ × ℕ) {t : ℕ}
    (ht : t < (allDiffs qs ks).length) :
    (allDiffs qs ks)[t] = relDiff qs ks (t / area ks) (t % area ks) := by
  rw [List.getElem_of_eq (allDiffs_eq_map qs ks)]
  simp

/-- Reading the flat 1-D inverse at position `a · area_k + b` yields the
inverse index of the pair `(a, b)`. -/
lemma flat_inverse_getD {qs ks : ℕ × ℕ} {a b : ℕ}
    (ha : a < area qs) (hb : b < area ks) :
    (flat_inverse qs ks).getD (a * area ks + b) 0
      = uniqueInverse qs ks a b := by
  have hn : 0 < area ks := lt_of_le_of_lt (Nat.zero_le b) hb
  have hlt : a * area ks + b < area qs * area ks := by
    have h := encode_lt ha hb
    rw [Nat.mul_comm (area ks) a] at h
    exact h
  have hlt' : a * area ks + b < (flat_inverse qs ks).length := by
    rw [length_flat_inverse]
    exact hlt
  have hlt'' : a * area ks + b < (allDiffs qs ks).length := by
    rw [allDiffs_eq_map]
    simpa using hlt
  rw [flat_inverse] at hlt' ⊢
  rw [List.getD_eq_getElem _ _ hlt', List.getElem_map, getElem_allDiffs]
  have hcomm : a * area ks + b = area ks * a + b := by ring
  rw [hcomm, Nat.mul_add_div hn, Nat.div_eq_of_lt hb, Nat.add_zero,
    Nat.mul_add_mod, Nat.mod_eq_of_lt hb]
  rfl

lemma mem_flat_inverse {qs ks : ℕ × ℕ} {v : ℕ} :
    v ∈ flat_inverse qs ks ↔
      ∃ a < area qs, ∃ b < area ks, uniqueInverse qs ks a b = v := by
  rw [flat_inverse]
  simp only [List.mem_map]
  constructor
  · rintro ⟨d, hd, rfl⟩
    obtain ⟨a, ha, b, hb, rfl⟩ := mem_allDiffs.mp hd
    exact ⟨a, ha, b, hb, rfl⟩
  · rintro ⟨a, ha, b, hb, rfl⟩
    exact ⟨relDiff qs ks a b, mem_allDiffs.mpr ⟨a, ha, b, hb, rfl⟩, rfl⟩

/-- The set of values of the flat inverse is an initial segment of ℕ of
size `(2h-1)(2w-1)`. -/
lemma flat_inverse_toFinset {h w : ℕ} (hh : 0 < h) (hw : 0 < w) :
    (flat_inverse (h, w) (h, w)).toFinset
      = Finset.range ((2 * h - 1) * (2 * w - 1)) := by
  have e1 : h + h - 1 = 2 * h - 1 := by omega
  have e2 : w + w - 1 = 2 * w - 1 := by omega
  ext v
  rw [List.mem_toFinset, Finset.mem_range, mem_flat_inverse]
  constructor
  · rintro ⟨a, ha, b, hb, rfl⟩
    have := @uniqueInverse_lt (h, w) (h, w) hh hw hh hw _ _ ha hb
    simpa [e1, e2] using this
  · intro hv
    have hv' : v < ((h, w).1 + (h, w).1 - 1) * ((h, w).2 + (h, w).2 - 1) := by
      simpa [e1, e2] using hv
    exact uniqueInverse_surjective hh hw hh hw hv'

/-- C1 counterexample: at the window `(2, 2)` (with `k_size` defaulted and
`class_token = False`) the function returns a tensor of shape `[16]` — the
flat 1-D unique inverse of length `(h·w)² = 16` — and not a matrix of
shape `(4, 4)`: the inverse of a `dim`-unique is 1-D and the source never
reshapes it, so the claimed shape `(h·w, h·w)` is false of the code. -/
theorem C1_counterexample :
    (gen_relative_position_index (2, 2) none false).map NatTensor.shape
      = .ok [16] ∧
    ([16] : List ℕ) ≠ [2 * 2, 2 * 2] :=
  ⟨rfl, by decide⟩

/-- C1 amended: `gen_relative_position_index((h, w))` with `k_size`
defaulted and `class_token = False` returns the flat 1-D inverse tensor of
length `(h·w)²` (not a `(h·w, h·w)` matrix), and its entries take exactly
`(2h-1)(2w-1)` distinct values, every one of which occurs. -/
theorem C1_flat_index_shape_and_distinct_values (h w : ℕ)
    (hh : 0 < h) (hw : 0 < w) :
    gen_relative_position_index (h, w) none false
      = .ok ⟨[h * w * (h * w)], flat_inverse (h, w) (h, w)⟩ ∧
    (flat_inverse (h, w) (h, w)).length = h * w * (h * w) ∧
    (flat_inverse (h, w) (h, w)).toFinset.card
      = (2 * h - 1) * (2 * w - 1) ∧
    (∀ v < (2 * h - 1) * (2 * w - 1), v ∈ flat_inverse (h, w) (h, w)) := by
  refine ⟨rfl, length_flat_inverse (h, w) (h, w), ?_, ?_⟩
  · rw [flat_inverse_toFinset hh hw, Finset.card_range]
  · intro v hv
    rw [← List.mem_toFinset, flat_inverse_toFinset hh hw, Finset.mem_range]
    exact hv

/-- Witness for the amended C1 at the window `(2, 2)`. -/
theorem C1_witness :
    gen_relative_position_index (2, 2) none false
      = .ok ⟨[2 * 2 * (2 * 2)], flat_inverse (2, 2) (2, 2)⟩ ∧
    (flat_inverse (2, 2) (2, 2)).length = 2 * 2 * (2 * 2) ∧
    (flat_inverse (2, 2) (2, 2)).toFinset.card
      = (2 * 2 - 1) * (2 * 2 - 1) ∧
    (∀ v < (2 * 2 - 1) * (2 * 2 - 1), v ∈ flat_inverse (2, 2) (2, 2)) :=
  C1_flat_index_shape_and_distinct_values 2 2 (by decide) (by decide)

/-- C2 (code bug): with `class_token = True` the source raises before any
overwrite — `F.pad(relative_position_index, [1, 0, 1, 0])` is applied to
the 1-D unique inverse and a 4-element pad list requires at least 2 input
dimensions (`AssertionError: Padding length too large`) — so the padded
`(h·w+1, h·w+1)` table with the three special overwrites that the claim
(and spec §4.1) describes is never produced.  This theorem evaluates the
code at the failing input `(2, 2)`. -/
theorem C2_class_token_raises :
    gen_relative_position_index (2, 2) none true
      = .error "Padding length too large" := rfl

/-- C3: without a prefix token, two position pairs with identical
coordinate differences receive identical class ids; the pair `(a, b)`
reads the flat 1-D inverse at position `a·(h·w) + b`. -/
theorem C3_index_symmetry (h w a b c d : ℕ) (hh : 0 < h) (hw : 0 < w)
    (ha : a < h * w) (hb : b < h * w) (hc : c < h * w) (hd : d < h * w)
    (hdiff : relDiff (h, w) (h, w) a b = relDiff (h, w) (h, w) c d) :
    (flat_inverse (h, w) (h, w)).getD (a * (h * w) + b) 0
      = (flat_inverse (h, w) (h, w)).getD (c * (h * w) + d) 0 := by
  have e1 := @flat_inverse_getD (h, w) (h, w) a b ha hb
  have e2 := @flat_inverse_getD (h, w) (h, w) c d hc hd
  have e3 : uniqueInverse (h, w) (h, w) a b
      = uniqueInverse (h, w) (h, w) c d := by
    simp only [uniqueInverse, hdiff]
  exact e1.trans (e3.trans e2.symm)

/-- Witness for C3: in the `(2, 2)` window, the pairs `(0, 1)` and
`(2, 3)` share the offset `(0, -1)` and the same class id. -/
theorem C3_witness :
    (flat_inverse (2, 2) (2, 2)).getD (0 * (2 * 2) + 1) 0
      = (flat_inverse (2, 2) (2, 2)).getD (2 * (2 * 2) + 3) 0 :=
  C3_index_symmetry 2 2 0 1 2 3 (by decide) (by decide) (by decide)
    (by decide) (by decide) (by decide) (by decide)

/-- Closed form of the inverse index for `q_size = k_size = (h, w)`. -/
lemma uniqueInverse_closed_form (h w a b : ℕ) (hh : 0 < h) (hw : 0 < w)
    (ha : a < h * w) (hb : b < h * w) :
    (uniqueInverse (h, w) (h, w) a b : ℤ) =
      ((relDiff (h, w) (h, w) a b).1 + ((h : ℤ) - 1)) * (2 * (w : ℤ) - 1) +
        ((relDiff (h, w) (h, w) a b).2 + ((w : ℤ) - 1)) := by
  have ha' : a < area (h, w) := ha
  have hb' : b < area (h, w) := hb
  have hbox := (@mem_allDiffs_box (h, w) (h, w) hh hw hh hw _).mp
    (mem_allDiffs.mpr ⟨a, ha', b, hb', rfl⟩)
  have hf := @uniqueInverse_formula (h, w) (h, w) hh hw hh hw _ _ ha' hb'
  rw [hf]
  set d := relDiff (h, w) (h, w) a b with hd
  have h1 : (0 : ℤ) ≤ d.1 + ((h : ℤ) - 1) := by
    have := hbox.1
    simp only at this ⊢
    omega
  have h2 : (0 : ℤ) ≤ d.2 + ((w : ℤ) - 1) := by
    have := hbox.2.2.1
    simp only at this ⊢
    omega
  push_cast [Int.toNat_of_nonneg h1, Int.toNat_of_nonneg h2]
  have hc : (((h, w).2 + (h, w).2 - 1 : ℕ) : ℤ) = 2 * (w : ℤ) - 1 := by
    simp only
    omega
  rw [hc]
  ring

/-- C9: with `q_size = k_size = (h, w)` and no prefix token, the inverse
index of the pair `(a, b)` — entry `a·(h·w) + b` of the flat 1-D tensor
the function returns — is exactly `(dr + h - 1)·(2w - 1) + (dc + w - 1)`
for its coordinate difference `(dr, dc)`: the distinct offsets are ranked
in ascending lexicographic order. -/
theorem C9_rank_closed_form (h w a b : ℕ) (hh : 0 < h) (hw : 0 < w)
    (ha : a < h * w) (hb : b < h * w) :
    gen_relative_position_index (h, w) none false
      = .ok ⟨[h * w * (h * w)], flat_inverse (h, w) (h, w)⟩ ∧
    ((flat_inverse (h, w) (h, w)).getD (a * (h * w) + b) 0 : ℤ) =
      ((relDiff (h, w) (h, w) a b).1 + ((h : ℤ) - 1)) * (2 * (w : ℤ) - 1) +
        ((relDiff (h, w) (h, w) a b).2 + ((w : ℤ) - 1)) := by
  refine ⟨rfl, ?_⟩
  have e1 := @flat_inverse_getD (h, w) (h, w) a b ha hb
  rw [show (flat_inverse (h, w) (h, w)).getD (a * (h * w) + b) 0
      = uniqueInverse (h, w) (h, w) a b from e1]
  exact uniqueInverse_closed_form h w a b hh hw ha hb

/-- Witness for C9: in the `(2, 2)` window the pair `(0, 3)` has offset
`(-1, -1)` and rank `0`. -/
theorem C9_witness :
    gen_relative_position_index (2, 2) none false
      = .ok ⟨[2 * 2 * (2 * 2)], flat_inverse (2, 2) (2, 2)⟩ ∧
    ((flat_inverse (2, 2) (2, 2)).getD (0 * (2 * 2) + 3) 0 : ℤ) =
      ((relDiff (2, 2) (2, 2) 0 3).1 + ((2 : ℤ) - 1)) * (2 * (2 : ℤ) - 1) +
        ((relDiff (2, 2) (2, 2) 0 3).2 + ((2 : ℤ) - 1)) :=
  C9_rank_closed_form 2 2 0 3 (by decide) (by decide) (by decide) (by decide)

/-- C8: asymmetric `q_size ≠ k_size` combined with `class_token = True`
raises an error rather than returning an index table.  The raise is not a
dedicated asymmetry guard: it is the `F.pad` failure on the 1-D unique
inverse (`AssertionError: Padding length too large`) that every
`class_token = True` call hits, `q_size = k_size` included. -/
theorem C8_asymmetric_class_token_raises (qs ks : ℕ × ℕ) (hne : qs ≠ ks) :
    gen_relative_position_index qs (some ks) true
      = .error "Padding length too large" := rfl

/-- Witness for C8 at `q_size = (1, 2)`, `k_size = (1, 3)`. -/
theorem C8_witness :
    gen_relative_position_index (1, 2) (some (1, 3)) true
      = .error "Padding length too large" :=
  C8_asymmetric_class_token_raises (1, 2) (1, 3) (by decide)

/-- Entry `(i, x, v)` of the one-hot lookup tensor produced by
`generate_lookup_tensor`: the loop body writes `ret[i, x, v] = 1` at
`v = x - i + max_relative_position` whenever
`|x - i| <= max_relative_position` (otherwise it `continue`s), and every
other entry keeps its zero initialisation. -/
def lookupEntry (m i x v : ℕ) : ℕ :=
  if (v : ℤ) = (x : ℤ) - (i : ℤ) + (m : ℤ) ∧ ((x : ℤ) - (i : ℤ)).natAbs ≤ m
  then 1 else 0

/-- The full `(length, length, vocab_size)` tensor of
`generate_lookup_tensor`, with `max_relative_position` defaulting to
`length - 1` and `vocab_size = 2 * max_relative_position + 1`. -/
def generate_lookup_tensor (length : ℕ) (maxRelativePosition : Option ℕ) :
    List (List (List ℕ)) :=
  let m := maxRelativePosition.getD (length - 1)
  let vocabSize := 2 * m + 1
  (List.range length).map fun i =>
    (List.range length).map fun x =>
      (List.range vocabSize).map fun v => lookupEntry m i x v

lemma getD_map_range {α : Type} (f : ℕ → α) (d : α) {n i : ℕ} (h : i < n) :
    ((List.range n).map f).getD i d = f i := by
  rw [List.getD_eq_getElem _ _ (by simpa using h)]
  simp

/-- C7: `generate_lookup_tensor(length, m)` (with `m` defaulting to
`length - 1`) has shape `(length, length, 2m+1)`; its entry `(i, x, v)` is
`1` exactly when `v = x - i + m` and `|x - i| <= m` and `0` otherwise; each
`(i, x)` vocabulary slice holds at most one nonzero entry; and for
`length = 3`, `m = 1` the slice `ret[0][2]` is all-zero while
`ret[1][2][2] = 1`. -/
theorem C7_lookup_tensor (length : ℕ) (mopt : Option ℕ) (hl : 0 < length) :
    (generate_lookup_tensor length mopt).length = length ∧
    (∀ mat ∈ generate_lookup_tensor length mopt, mat.length = length ∧
      ∀ row ∈ mat, row.length = 2 * mopt.getD (length - 1) + 1) ∧
    generate_lookup_tensor length none
      = generate_lookup_tensor length (some (length - 1)) ∧
    (∀ i x v, i < length → x < length →
        v < 2 * mopt.getD (length - 1) + 1 →
      (((generate_lookup_tensor length mopt).getD i []).getD x []).getD v 0
        = lookupEntry (mopt.getD (length - 1)) i x v) ∧
    (∀ m i x v : ℕ,
      (lookupEntry m i x v = 1 ↔
        ((v : ℤ) = (x : ℤ) - (i : ℤ) + (m : ℤ) ∧
          ((x : ℤ) - (i : ℤ)).natAbs ≤ m)) ∧
      (lookupEntry m i x v = 0 ∨ lookupEntry m i x v = 1)) ∧
    (∀ m i x v₁ v₂ : ℕ, lookupEntry m i x v₁ = 1 →
        lookupEntry m i x v₂ = 1 → v₁ = v₂) ∧
    ((generate_lookup_tensor 3 (some 1)).getD 0 []).getD 2 [] = [0, 0, 0] ∧
    (((generate_lookup_tensor 3 (some 1)).getD 1 []).getD 2 []).getD 2 0
      = 1 := by
  refine ⟨by simp [generate_lookup_tensor], ?_, rfl, ?_, ?_, ?_,
    by decide, by decide⟩
  · intro mat hmat
    simp only [generate_lookup_tensor, List.mem_map, List.mem_range] at hmat
    obtain ⟨i, _, rfl⟩ := hmat
    refine ⟨by simp, ?_⟩
    intro row hrow
    simp only [List.mem_map, List.mem_range] at hrow
    obtain ⟨x, _, rfl⟩ := hrow
    simp
  · intro i x v hi hx hv
    rw [generate_lookup_tensor]
    rw [getD_map_range _ _ hi, getD_map_range _ _ hx, getD_map_range _ _ hv]
  · intro m i x v
    constructor
    · by_cases hcond : (v : ℤ) = (x : ℤ) - (i : ℤ) + (m : ℤ) ∧
          ((x : ℤ) - (i : ℤ)).natAbs ≤ m
      · simp [lookupEntry, hcond]
      · simp [lookupEntry, hcond]
    · by_cases hcond : (v : ℤ) = (x : ℤ) - (i : ℤ) + (m : ℤ) ∧
          ((x : ℤ) - (i : ℤ)).natAbs ≤ m
      · right
        simp [lookupEntry, hcond]
      · left
        simp [lookupEntry, hcond]
  · intro m i x v₁ v₂ h1 h2
    have e1 : (v₁ : ℤ) = (x : ℤ) - (i : ℤ) + (m : ℤ) := by
      by_contra hne
      simp [lookupEntry, hne] at h1
    have e2 : (v₂ : ℤ) = (x : ℤ) - (i : ℤ) + (m : ℤ) := by
      by_contra hne
      simp [lookupEntry, hne] at h2
    omega

/-- Witness for C7 at `length = 3`, `max_relative_position = 1`. -/
theorem C7_witness :
    (generate_lookup_tensor 3 (some 1)).length = 3 ∧
    (∀ mat ∈ generate_lookup_tensor 3 (some 1), mat.length = 3 ∧
      ∀ row ∈ mat, row.length = 2 * (some 1).getD (3 - 1) + 1) ∧
    generate_lookup_tensor 3 none
      = generate_lookup_tensor 3 (some (3 - 1)) ∧
    (∀ i x v, i < 3 → x < 3 → v < 2 * (some 1).getD (3 - 1) + 1 →
      (((generate_lookup_tensor 3 (some 1)).getD i []).getD x []).getD v 0
        = lookupEntry ((some 1).getD (3 - 1)) i x v) ∧
    (∀ m i x v : ℕ,
      (lookupEntry m i x v = 1 ↔
        ((v : ℤ) = (x : ℤ) - (i : ℤ) + (m : ℤ) ∧
          ((x : ℤ) - (i : ℤ)).natAbs ≤ m)) ∧
      (lookupEntry m i x v = 0 ∨ lookupEntry m i x v = 1)) ∧
    (∀ m i x v₁ v₂ : ℕ, lookupEntry m i x v₁ = 1 →
        lookupEntry m i x v₂ = 1 → v₁ = v₂) ∧
    ((generate_lookup_tensor 3 (some 1)).getD 0 []).getD 2 [] = [0, 0, 0] ∧
    (((generate_lookup_tensor 3 (some 1)).getD 1 []).getD 2 []).getD 2 0
      = 1 :=
  C7_lookup_tensor 3 (some 1) (by decide)

/-- `torch.arange(-(n-1), n)[i]`: the raw relative offset at grid index
`i` along an axis of length `n`. -/
def relCoord (n i : ℕ) : ℤ := (i : ℤ) - ((n : ℤ) - 1)

/-- The raw offset at cell `(i, j)` of the permuted
`(2h-1, 2w-1, 2)` coordinate table: channel 0 is the row offset, channel 1
the column offset. -/
def rawOffset (winSize : ℕ × ℕ) (i j : ℕ) (c : Fin 2) : ℤ :=
  if c = 0 then relCoord winSize.1 i else relCoord winSize.2 j

/-- The reference length used by the swin branch for channel `c`: the
pretrained window size when its first component is positive, else the
current window size (the source tests only `pretrained_win_size[0] > 0`). -/
def refSize (winSize pretrained : ℕ × ℕ) (c : Fin 2) : ℕ :=
  if 0 < pretrained.1 then (if c = 0 then pretrained.1 else pretrained.2)
  else (if c = 0 then winSize.1 else winSize.2)

/-- The swin-mode squash `sign(x) * log2(1 + |x|) / log2 8`. -/
noncomputable def swinSquash (x : ℝ) : ℝ :=
  Real.sign x * Real.logb 2 (1 + |x|) / Real.logb 2 8

/-- The cr-mode squash `sign(x) * ln(1 + |x|)` (no rescaling). -/
noncomputable def crSquash (x : ℝ) : ℝ := Real.sign x * Real.log (1 + |x|)

/-- Value of the `gen_relative_log_coords` tensor at cell `(i, j, c)`,
for a valid mode.  Real-valued model of the float32 tensor; the IEEE
non-finite values the swin branch produces when `refSize = 1` (division by
zero) are outside this model, and no theorem below evaluates the swin
branch there. -/
noncomputable def gen_relative_log_coords_table (win_size : ℕ × ℕ)
    (pretrained_win_size : ℕ × ℕ) (mode : String) (i j : ℕ) (c : Fin 2) : ℝ :=
  if mode = "swin" then
    swinSquash ((rawOffset win_size i j c : ℝ)
      / ((refSize win_size pretrained_win_size c : ℝ) - 1) * 8)
  else crSquash (rawOffset win_size i j c : ℝ)

/-- `gen_relative_log_coords` with its `assert mode in ("swin", "cr")`:
the assert is the only failure path of the function; every valid mode
returns the tensor. -/
noncomputable def gen_relative_log_coords (win_size : ℕ × ℕ)
    (pretrained_win_size : ℕ × ℕ) (mode : String) :
    Except String (ℕ → ℕ → Fin 2 → ℝ) :=
  if mode = "swin" ∨ mode = "cr" then
    .ok (gen_relative_log_coords_table win_size pretrained_win_size mode)
  else .error "assert failed: mode not in swin, cr"

lemma log_coords_table_swin (win pre : ℕ × ℕ) (i j : ℕ) (c : Fin 2) :
    gen_relative_log_coords_table win pre "swin" i j c
      = swinSquash ((rawOffset win i j c : ℝ)
          / ((refSize win pre c : ℝ) - 1) * 8) := by
  rw [gen_relative_log_coords_table, if_pos rfl]

lemma logb_two_eight : Real.logb 2 8 = 3 := by
  have h2 : Real.log 2 ≠ 0 := ne_of_gt (Real.log_pos one_lt_two)
  rw [show (8 : ℝ) = 2 ^ (3 : ℕ) by norm_num, Real.logb, Real.log_pow]
  field_simp

lemma logb_two_nine_gt : 3 < Real.logb 2 9 := by
  rw [← logb_two_eight]
  exact Real.logb_lt_logb one_lt_two (by norm_num) (by norm_num)

lemma swinSquash_zero : swinSquash 0 = 0 := by
  simp [swinSquash]

lemma swinSquash_nonneg_factor {x : ℝ} :
    0 ≤ Real.logb 2 (1 + |x|) / Real.logb 2 8 := by
  apply div_nonneg
  · exact Real.logb_nonneg one_lt_two (by simp [abs_nonneg, le_add_iff_nonneg_right])
  · rw [logb_two_eight]
    norm_num

lemma swinSquash_of_pos {x : ℝ} (hx : 0 < x) :
    swinSquash x = Real.logb 2 (1 + |x|) / Real.logb 2 8 := by
  rw [swinSquash, Real.sign_of_pos hx]
  ring

lemma swinSquash_of_neg {x : ℝ} (hx : x < 0) :
    swinSquash x = -(Real.logb 2 (1 + |x|) / Real.logb 2 8) := by
  rw [swinSquash, Real.sign_of_neg hx]
  ring

lemma swinSquash_pos_factor {x : ℝ} (hx : x ≠ 0) :
    0 < Real.logb 2 (1 + |x|) / Real.logb 2 8 := by
  apply div_pos
  · apply Real.logb_pos one_lt_two
    have := abs_pos.mpr hx
    linarith
  · rw [logb_two_eight]
    norm_num

lemma sign_swinSquash (x : ℝ) : Real.sign (swinSquash x) = Real.sign x := by
  rcases lt_trichotomy x 0 with hx | hx | hx
  · rw [swinSquash_of_neg hx, Real.sign_of_neg hx, Real.sign_of_neg]
    have := swinSquash_pos_factor (ne_of_lt hx)
    linarith
  · rw [hx, swinSquash_zero]
  · rw [swinSquash_of_pos hx, Real.sign_of_pos hx, Real.sign_of_pos]
    exact swinSquash_pos_factor (ne_of_gt hx)

lemma abs_swinSquash_le {x : ℝ} (hx : |x| ≤ 8) :
    |swinSquash x| ≤ Real.logb 2 9 / Real.logb 2 8 := by
  have hfac : Real.logb 2 (1 + |x|) / Real.logb 2 8
      ≤ Real.logb 2 9 / Real.logb 2 8 := by
    rw [logb_two_eight]
    have h := Real.logb_le_logb_of_le one_lt_two
      (show (0 : ℝ) < 1 + |x| by positivity)
      (show (1 : ℝ) + |x| ≤ 9 by linarith)
    linarith
  rcases lt_trichotomy x 0 with hx0 | hx0 | hx0
  · rw [swinSquash_of_neg hx0, abs_neg,
      abs_of_nonneg swinSquash_nonneg_factor]
    exact hfac
  · rw [hx0, swinSquash_zero, abs_zero, logb_two_eight]
    apply div_nonneg ?_ (by norm_num)
    exact Real.logb_nonneg one_lt_two (by norm_num)
  · rw [swinSquash_of_pos hx0, abs_of_nonneg swinSquash_nonneg_factor]
    exact hfac

/-- Per-axis properties of a swin-mode cell when the reference size is the
axis length `n ≥ 2` (the `pretrained_win_size` unset case): the squashed
value is bounded by `log2 9 / log2 8`, the zero offset maps to zero, and
the sign of the output equals the sign of the raw offset. -/
lemma swin_cell_props {n : ℕ} (hn : 2 ≤ n) {idx : ℕ} (hidx : idx < 2 * n - 1) :
    |swinSquash ((relCoord n idx : ℝ) / ((n : ℝ) - 1) * 8)|
      ≤ Real.logb 2 9 / Real.logb 2 8 ∧
    (idx = n - 1 →
      swinSquash ((relCoord n idx : ℝ) / ((n : ℝ) - 1) * 8) = 0) ∧
    Real.sign (swinSquash ((relCoord n idx : ℝ) / ((n : ℝ) - 1) * 8))
      = Real.sign ((relCoord n idx : ℤ) : ℝ) := by
  have hbnd : -((n : ℤ) - 1) ≤ relCoord n idx ∧ relCoord n idx ≤ (n : ℤ) - 1 := by
    simp only [relCoord]
    omega
  have hd : (0 : ℝ) < (n : ℝ) - 1 := by
    have : (2 : ℝ) ≤ (n : ℝ) := by exact_mod_cast hn
    linarith
  have hoff : |((relCoord n idx : ℤ) : ℝ)| ≤ (n : ℝ) - 1 := by
    rw [abs_le]
    constructor
    · exact_mod_cast hbnd.1
    · exact_mod_cast hbnd.2
  refine ⟨?_, ?_, ?_⟩
  · apply abs_swinSquash_le
    have habs : |((relCoord n idx : ℤ) : ℝ) / ((n : ℝ) - 1) * 8|
        = |((relCoord n idx : ℤ) : ℝ)| / ((n : ℝ) - 1) * 8 := by
      rw [abs_mul, abs_div, abs_of_pos hd]
      norm_num
    rw [habs]
    have hb : |((relCoord n idx : ℤ) : ℝ)| / ((n : ℝ) - 1) ≤ 1 :=
      (div_le_one hd).mpr hoff
    linarith
  · intro hcenter
    have h0 : relCoord n idx = 0 := by
      subst hcenter
      simp only [relCoord]
      omega
    rw [h0]
    norm_num [swinSquash_zero]
  · rw [sign_swinSquash]
    have h8d : (0 : ℝ) < 8 / ((n : ℝ) - 1) := by positivity
    rcases lt_trichotomy ((relCoord n idx : ℤ) : ℝ) 0 with ho | ho | ho
    · have hx : ((relCoord n idx : ℤ) : ℝ) / ((n : ℝ) - 1) * 8 < 0 := by
        apply mul_neg_of_neg_of_pos (div_neg_of_neg_of_pos ho hd)
        norm_num
      rw [Real.sign_of_neg hx, Real.sign_of_neg ho]
    · rw [ho]
      norm_num
    · have hx : (0 : ℝ) < ((relCoord n idx : ℤ) : ℝ) / ((n : ℝ) - 1) * 8 := by
        apply mul_pos (div_pos ho hd)
        norm_num
      rw [Real.sign_of_pos hx, Real.sign_of_pos ho]

/-- C4 counterexample: in the `(2, 2)` window with `pretrained_win_size`
unset and `mode = "swin"`, the cell `(0, 0)` of the log-coordinate table
has row channel `-(log2 9)/(log2 8) ≈ -1.0566 < -1`, so the output does
not lie within the closed interval `[-1, 1]` claimed by the spec. -/
theorem C4_counterexample :
    gen_relative_log_coords_table (2, 2) (0, 0) "swin" 0 0 0 < -1 := by
  rw [log_coords_table_swin]
  have h1 : rawOffset (2, 2) 0 0 0 = -1 := rfl
  have h2 : refSize (2, 2) (0, 0) 0 = 2 := rfl
  rw [h1, h2]
  have harg : ((-1 : ℤ) : ℝ) / (((2 : ℕ) : ℝ) - 1) * 8 = -8 := by norm_num
  rw [harg, swinSquash_of_neg (by norm_num : (-8 : ℝ) < 0)]
  have h9 := logb_two_nine_gt
  rw [logb_two_eight, show |(-8 : ℝ)| = 8 by norm_num,
    show (1 : ℝ) + 8 = 9 by norm_num]
  linarith

/-- C4 amended: with `pretrained_win_size = (0, 0)` and `mode = "swin"`,
every entry of the log-coordinate table of a window `(h, w)` with
`h, w ≥ 2` lies within `[-(log2 9)/(log2 8), (log2 9)/(log2 8)]`
(a bound strictly larger than 1, so the claimed `[-1, 1]` fails exactly at
the extreme offsets); the center cell maps to exactly 0 and the sign of
each output coordinate matches the sign of the corresponding raw offset. -/
theorem C4_amended_swin_log_coords (h w i j : ℕ) (c : Fin 2)
    (hh : 2 ≤ h) (hw : 2 ≤ w) (hi : i < 2 * h - 1) (hj : j < 2 * w - 1) :
    |gen_relative_log_coords_table (h, w) (0, 0) "swin" i j c|
      ≤ Real.logb 2 9 / Real.logb 2 8 ∧
    1 < Real.logb 2 9 / Real.logb 2 8 ∧
    (i = h - 1 → j = w - 1 →
      gen_relative_log_coords_table (h, w) (0, 0) "swin" i j c = 0) ∧
    Real.sign (gen_relative_log_coords_table (h, w) (0, 0) "swin" i j c)
      = Real.sign ((rawOffset (h, w) i j c : ℤ) : ℝ) := by
  have hgt : 1 < Real.logb 2 9 / Real.logb 2 8 := by
    have := logb_two_nine_gt
    rw [logb_two_eight]
    linarith
  rw [log_coords_table_swin]
  by_cases hc : c = 0
  · have h1 : rawOffset (h, w) i j c = relCoord h i := by
      simp [rawOffset, hc]
    have h2 : refSize (h, w) (0, 0) c = h := by
      simp [refSize, hc]
    rw [h1, h2]
    obtain ⟨hb, hcen, hs⟩ := swin_cell_props hh hi
    exact ⟨hb, hgt, fun hic _ => hcen hic, hs⟩
  · have h1 : rawOffset (h, w) i j c = relCoord w j := by
      simp [rawOffset, hc]
    have h2 : refSize (h, w) (0, 0) c = w := by
      simp [refSize, hc]
    rw [h1, h2]
    obtain ⟨hb, hcen, hs⟩ := swin_cell_props hw hj
    exact ⟨hb, hgt, fun _ hjc => hcen hjc, hs⟩

/-- Witness for the amended C4 at the window `(2, 2)`, center cell,
row channel. -/
theorem C4_amended_witness :
    |gen_relative_log_coords_table (2, 2) (0, 0) "swin" 1 1 0|
      ≤ Real.logb 2 9 / Real.logb 2 8 ∧
    1 < Real.logb 2 9 / Real.logb 2 8 ∧
    (1 = 2 - 1 → 1 = 2 - 1 →
      gen_relative_log_coords_table (2, 2) (0, 0) "swin" 1 1 0 = 0) ∧
    Real.sign (gen_relative_log_coords_table (2, 2) (0, 0) "swin" 1 1 0)
      = Real.sign ((rawOffset (2, 2) 1 1 0 : ℤ) : ℝ) :=
  C4_amended_swin_log_coords 2 2 1 1 0 (by decide) (by decide) (by decide)
    (by decide)

/-- C6 counterexample: `gen_relative_log_coords((1, 2), (0, 0), "cr")` has
a degenerate axis (`win_size[0] = 1`, so the effective reference size along
that axis is 1) yet raises nothing and returns a tensor: the claimed
fail-fast configuration error does not exist in the code.  (The cr branch
performs no division at all, so the input is even mathematically
harmless.) -/
theorem C6_counterexample :
    (gen_relative_log_coords (1, 2) (0, 0) "cr").isOk = true := rfl

/-- C6 amended: `gen_relative_log_coords` contains no reference-size
guard; its only fail-fast check is `assert mode in ("swin", "cr")`.  For
every window and pretrained size — including degenerate size-1 axes — a
valid mode returns a tensor and an invalid mode raises.  (In swin mode a
size-1 reference axis silently yields IEEE non-finite values rather than
an error, which the real-valued model does not represent.) -/
theorem C6_amended_only_mode_assert (win pre : ℕ × ℕ) (mode : String) :
    (gen_relative_log_coords win pre mode).isOk = true ↔
      (mode = "swin" ∨ mode = "cr") := by
  by_cases hm : mode = "swin" ∨ mode = "cr"
  · simp [gen_relative_log_coords, hm, Except.isOk, Except.toBool]
  · simp [gen_relative_log_coords, hm, Except.isOk, Except.toBool]

/-- State of a constructed `RelPosBias` head.  The learned
`relative_position_bias_table` has one row per relative-distance class and
one column per head; its values are whatever the (external) initialiser
and training process left there. -/
structure RelPosBias where
  window_size : ℕ × ℕ
  num_heads : ℕ
  prefix_tokens : ℕ
  relative_position_bias_table : ℕ → ℕ → ℝ

/-- The `relative_position_index` buffer cached by `RelPosBias.__init__`.
`RelPosBias.init` can only complete with `prefix_tokens = 0` (the
class-token call raises at `F.pad`, see `gen_relative_position_index`), so
every constructed instance holds the flat 1-D `class_token = False`
inverse. -/
def RelPosBias.relative_position_index (s : RelPosBias) : List ℕ :=
  flat_inverse s.window_size s.window_size

/-- `RelPosBias.__init__`: asserts `prefix_tokens <= 1`, then registers the
index buffer by calling `gen_relative_position_index(window_size,
class_token := prefix_tokens > 0)` — which raises for `prefix_tokens = 1`
— so only `prefix_tokens = 0` instances are ever constructed. -/
def RelPosBias.init (window_size : ℕ × ℕ) (num_heads prefix_tokens : ℕ)
    (table : ℕ → ℕ → ℝ) : Except String RelPosBias :=
  if 1 < prefix_tokens then .error "assert prefix_tokens <= 1"
  else
    match gen_relative_position_index window_size none
        (decide (0 < prefix_tokens)) with
    | .error e => .error e
    | .ok _ => .ok ⟨window_size, num_heads, prefix_tokens, table⟩

/-- `RelPosBias.get_bias` as a state-passing call: it gathers rows of the
learned table by the cached index buffer (`view(-1)` of the flat inverse:
pair `(i, j)` reads position `i · area + j`), reshapes and permutes, and
mutates nothing, so the post-call state equals the pre-call state.  Output
axes are `(head, i, j)`; the leading batch axis of size 1 is a reshape
carrying no data and is omitted. -/
def RelPosBias.get_bias (s : RelPosBias) :
    (ℕ → ℕ → ℕ → ℝ) × RelPosBias :=
  ((fun hd i j =>
      s.relative_position_bias_table
        (s.relative_position_index.getD (i * area s.window_size + j) 0)
        hd), s)

/-- State of a constructed `RelPosMlp` head. -/
structure RelPosMlp where
  window_size : ℕ × ℕ
  num_heads : ℕ
  hidden_dim : ℕ
  prefix_tokens : ℕ
  mode : String
  pretrained_window_size : ℕ × ℕ
  /-- Modelled from the spec: the injected projection sublayer
  (`mlp.base_mlp.LinearMLP`, whose source is not part of this repository)
  is per §6 "treated as an opaque function `ℝ² → ℝ^{num_heads}` applied
  elementwise over the coordinate grid's leading axes", so it is modelled
  as an arbitrary pure function from the two input features and the head
  index to a real value, with its learned parameters captured by the
  function itself. -/
  mlp : ℝ × ℝ → ℕ → ℝ

/-- The `rel_coords_log` buffer cached by `RelPosMlp.__init__`. -/
noncomputable def RelPosMlp.rel_coords_log (s : RelPosMlp) :
    ℕ → ℕ → Fin 2 → ℝ :=
  gen_relative_log_coords_table s.window_size s.pretrained_window_size s.mode

/-- The `relative_position_index` buffer cached by `RelPosMlp.__init__`
(built without class-token padding, hence the flat 1-D inverse). -/
def RelPosMlp.relative_position_index (s : RelPosMlp) : List ℕ :=
  flat_inverse s.window_size s.window_size

/-- `torch.sigmoid`, the `bias_act` selected for swin mode (`cr` mode uses
the identity). -/
noncomputable def sigmoid (x : ℝ) : ℝ := 1 / (1 + Real.exp (-x))

/-- `RelPosMlp.get_bias` as a state-passing call: evaluate the projection
on every cell of the cached log-coordinate grid, flatten row-major to
`(vocab, heads)`, gather by the cached index table, permute to heads
first, apply sigmoid and the fixed gain 16 in swin mode (identity in cr
mode), and zero-pad by `prefix_tokens` rows and columns on the low side.
No state is mutated, so the post-call state equals the pre-call state. -/
noncomputable def RelPosMlp.get_bias (s : RelPosMlp) :
    (ℕ → ℕ → ℕ → ℝ) × RelPosMlp :=
  let n := 2 * s.window_size.2 - 1
  let projected : ℕ → ℕ → ℝ := fun t hd =>
    s.mlp (s.rel_coords_log (t / n) (t % n) 0,
           s.rel_coords_log (t / n) (t % n) 1) hd
  let gathered : ℕ → ℕ → ℕ → ℝ := fun hd i j =>
    projected
      (s.relative_position_index.getD (i * area s.window_size + j) 0) hd
  let acted : ℕ → ℕ → ℕ → ℝ :=
    if s.mode = "swin" then fun hd i j => 16 * sigmoid (gathered hd i j)
    else gathered
  let padded : ℕ → ℕ → ℕ → ℝ := fun hd i j =>
    if i < s.prefix_tokens ∨ j < s.prefix_tokens then 0
    else acted hd (i - s.prefix_tokens) (j - s.prefix_tokens)
  (padded, s)

/-- C5: `get_bias` of both bias heads is a deterministic read of the
stored state: it leaves the state unchanged, and a second call on the
post-call state returns a bias tensor identical to the first call's. -/
theorem C5_get_bias_deterministic (s : RelPosBias) (t : RelPosMlp) :
    s.get_bias.2 = s ∧ t.get_bias.2 = t ∧
    (s.get_bias.2.get_bias).1 = s.get_bias.1 ∧
    (t.get_bias.2.get_bias).1 = t.get_bias.1 :=
  ⟨rfl, rfl, rfl, rfl⟩

/-- C10 (code bug): constructing `RelPosBias` with `prefix_tokens = 1`
raises inside `__init__` — the buffer registration calls
`gen_relative_position_index(window_size, class_token := True)`, which
fails at `F.pad` on the 1-D unique inverse — so no `p = 1` instance, and
no cached `p = 1` buffer for the claim to bound, ever exists; the same
construction with `prefix_tokens = 0` succeeds, and for that buffer the
claimed in-bounds property does hold (every entry of the `(2, 2)` buffer
is below `(2·2-1)·(2·2-1) = 9`, the `p = 0` table row count; in general
`uniqueInverse_lt`). -/
theorem C10_prefix_one_construction_raises :
    (RelPosBias.init (2, 2) 1 1 (fun _ _ => (0 : ℝ))).isOk = false ∧
    (RelPosBias.init (2, 2) 1 0 (fun _ _ => (0 : ℝ))).isOk = true ∧
    (∀ i < 2 * 2, ∀ j < 2 * 2,
      (flat_inverse (2, 2) (2, 2)).getD (i * (2 * 2) + j) 0
        < (2 * 2 - 1) * (2 * 2 - 1) + 3 * 0) :=
  ⟨rfl, rfl, by decide⟩

end RelPosEmbd
